import Mathlib

/-!
Verification of the panel-construction and data-fusion pipeline of the
TransPort-PH repository.

The development shallowly embeds the tabular transformations of
`scripts/train_test_split.py`, `scripts/panel_balance.py`,
`scripts/merge_panel.py`, `src/preprocessing/outlier_winsorization.py`,
`src/preprocessing/handle_missing_values.py` and
`src/data_collection/data_gathering_congestion_proxy.py` as executable
functions on lists of rows (tables).  Numeric cell values are rationals;
a nullable cell is an `Option ℚ` (Python/pandas `NaN` is `none`, and the
embedding mirrors pandas' NaN conventions: aggregations skip nulls,
comparisons against null are false).
-/

namespace TransPort

/-- A row of a generic country-year panel (`worldbank_data.csv`,
`clean_panel.csv`): the `(country, year)` key plus the remaining numeric
cells, whose identity is irrelevant to the splitter and balancer. -/
structure PRow where
  country : String
  year : ℤ
  vals : List (Option ℚ)
deriving DecidableEq, Repr

/-! ## Time-based splitter (`scripts/train_test_split.py`) -/

/-- Embeds `train = df[df['year'] < split_year]`
(`train_test_split.py` lines 50 and 157). -/
def trainSplit (df : List PRow) (splitYear : ℤ) : List PRow :=
  df.filter (fun r => decide (r.year < splitYear))

/-- Embeds `test = df[df['year'] >= split_year]`
(`train_test_split.py` lines 51 and 158). -/
def testSplit (df : List PRow) (splitYear : ℤ) : List PRow :=
  df.filter (fun r => decide (splitYear ≤ r.year))

/-- Embeds `df['year'].max()` on a panel: `none` on an empty table
(pandas yields `NaN` there). -/
def maxYear? : List PRow → Option ℤ
  | [] => none
  | r :: rs =>
    match maxYear? rs with
    | none => some r.year
    | some m => some (max r.year m)

/-- Embeds `df['year'].min()` on a panel: `none` on an empty table. -/
def minYear? : List PRow → Option ℤ
  | [] => none
  | r :: rs =>
    match minYear? rs with
    | none => some r.year
    | some m => some (min r.year m)

/-- Embeds the assertion `train['year'].max() < test['year'].min()`
(`train_test_split.py` line 66).  On an empty side pandas produces `NaN`
and the comparison is `False`, so the assert fails; the embedding returns
`false` accordingly. -/
def checkLeak (train test : List PRow) : Bool :=
  match maxYear? train, minYear? test with
  | some a, some b => decide (a < b)
  | _, _ => false

/-- Embeds the whole persisting stage of `train_test_split.py`: the
worldbank panel is split (lines 50-51), the leakage assert runs (line 66)
and on failure the script dies before writing anything; on success the
worldbank split files are written (lines 87-88) and then the clean panel
is split and written with no further check (lines 157-165).  The result
is `none` when the stage aborts, otherwise the pair of persisted
(train, test) partitions for the worldbank panel and the clean panel. -/
def runSplitStage (wb clean : List PRow) (splitYear : ℤ) :
    Option ((List PRow × List PRow) × (List PRow × List PRow)) :=
  let tr := trainSplit wb splitYear
  let te := testSplit wb splitYear
  if checkLeak tr te then
    some ((tr, te), (trainSplit clean splitYear, testSplit clean splitYear))
  else
    none

theorem maxYear?_eq_none {l : List PRow} (h : maxYear? l = none) : l = [] := by
  cases l with
  | nil => rfl
  | cons x xs =>
    exfalso
    simp only [maxYear?] at h
    cases hx : maxYear? xs <;> rw [hx] at h <;> simp at h

theorem minYear?_eq_none {l : List PRow} (h : minYear? l = none) : l = [] := by
  cases l with
  | nil => rfl
  | cons x xs =>
    exfalso
    simp only [minYear?] at h
    cases hx : minYear? xs <;> rw [hx] at h <;> simp at h

theorem maxYear?_spec {l : List PRow} {a : ℤ} (h : maxYear? l = some a) :
    (∃ r ∈ l, r.year = a) ∧ ∀ r ∈ l, r.year ≤ a := by
  induction l generalizing a with
  | nil => simp [maxYear?] at h
  | cons x xs ih =>
    simp only [maxYear?] at h
    cases hx : maxYear? xs with
    | none =>
      rw [hx] at h
      simp at h
      subst h
      rw [maxYear?_eq_none hx]
      exact ⟨⟨x, by simp⟩, by simp⟩
    | some m =>
      rw [hx] at h
      simp at h
      obtain ⟨⟨r, hr, hra⟩, hle⟩ := ih hx
      subst h
      constructor
      · rcases max_choice x.year m with hc | hc
        · exact ⟨x, by simp, hc.symm⟩
        · exact ⟨r, by simp [hr], by rw [hra, hc]⟩
      · intro s hs
        rcases List.mem_cons.mp hs with hsx | hsx
        · subst hsx; exact le_max_left _ _
        · exact le_trans (hle s hsx) (le_max_right _ _)

theorem minYear?_spec {l : List PRow} {b : ℤ} (h : minYear? l = some b) :
    (∃ r ∈ l, r.year = b) ∧ ∀ r ∈ l, b ≤ r.year := by
  induction l generalizing b with
  | nil => simp [minYear?] at h
  | cons x xs ih =>
    simp only [minYear?] at h
    cases hx : minYear? xs with
    | none =>
      rw [hx] at h
      simp at h
      subst h
      rw [minYear?_eq_none hx]
      exact ⟨⟨x, by simp⟩, by simp⟩
    | some m =>
      rw [hx] at h
      simp at h
      obtain ⟨⟨r, hr, hrb⟩, hle⟩ := ih hx
      subst h
      constructor
      · rcases min_choice x.year m with hc | hc
        · exact ⟨x, by simp, hc.symm⟩
        · exact ⟨r, by simp [hr], by rw [hrb, hc]⟩
      · intro s hs
        rcases List.mem_cons.mp hs with hsx | hsx
        · subst hsx; exact min_le_left _ _
        · exact le_trans (min_le_right _ _) (hle s hsx)

/-- Shared leakage argument: a maximal train year is strictly below a
minimal test year, because train years are `< splitYear` and test years
are `≥ splitYear`. -/
theorem split_leak_free {df : List PRow} {y a b : ℤ}
    (ha : maxYear? (trainSplit df y) = some a)
    (hb : minYear? (testSplit df y) = some b) : a < b := by
  obtain ⟨⟨r, hr, hra⟩, -⟩ := maxYear?_spec ha
  obtain ⟨⟨s, hs, hsb⟩, -⟩ := minYear?_spec hb
  have h1 : r.year < y := by
    have := (List.mem_filter.mp hr).2
    simpa using this
  have h2 : y ≤ s.year := by
    have := (List.mem_filter.mp hs).2
    simpa using this
  omega

/-! ## Panel balancer (`scripts/panel_balance.py`) -/

/-- Embeds `df.groupby('country')['year'].count()` for one country
(`panel_balance.py` line 26); years are modelled as non-null integers (the
standardizer coerces and filters them upstream), so the non-null count is
the row count. -/
def countryCount (df : List PRow) (c : String) : ℕ :=
  (df.filter (fun r => decide (r.country = c))).length

/-- Embeds `valid_countries = country_counts[country_counts >= min_years].index`
(`panel_balance.py` line 33). -/
def validCountries (df : List PRow) (minYears : ℕ) : List String :=
  ((df.map (fun r => r.country)).dedup).filter
    (fun c => decide (minYears ≤ countryCount df c))

/-- Embeds `df_filtered = df[df['country'].isin(valid_countries)]`
(`panel_balance.py` line 49). -/
def balancePanel (df : List PRow) (minYears : ℕ) : List PRow :=
  df.filter (fun r => decide (r.country ∈ validCountries df minYears))

/-- C7: every country retained after balancing has a pre-balance row count
at or above the threshold, every row whose country is removed has a row
count below the threshold, and the output is exactly the unmodified rows
of the retained countries (a filter of the input). -/
theorem panel_balance_threshold (df : List PRow) (minYears : ℕ) :
    (∀ r ∈ balancePanel df minYears, minYears ≤ countryCount df r.country) ∧
    (∀ r ∈ df, r ∉ balancePanel df minYears →
      countryCount df r.country < minYears) ∧
    balancePanel df minYears =
      df.filter (fun r => decide (minYears ≤ countryCount df r.country)) := by
  have hmem : ∀ r ∈ df,
      (r.country ∈ validCountries df minYears ↔
        minYears ≤ countryCount df r.country) := by
    intro r hr
    unfold validCountries
    rw [List.mem_filter]
    simp only [List.mem_dedup, List.mem_map, decide_eq_true_eq]
    constructor
    · intro h; exact h.2
    · intro h; exact ⟨⟨r, hr, rfl⟩, h⟩
  refine ⟨?_, ?_, ?_⟩
  · intro r hr
    have h1 := List.mem_filter.mp hr
    have h2 : r.country ∈ validCountries df minYears := by simpa using h1.2
    exact (hmem r h1.1).mp h2
  · intro r hr hnot
    by_contra hge
    push_neg at hge
    apply hnot
    apply List.mem_filter.mpr
    exact ⟨hr, by simpa using (hmem r hr).mpr hge⟩
  · apply List.filter_congr
    intro r hr
    simp only [decide_eq_decide]
    exact hmem r hr

/-- Witness for C7 at a concrete panel: with threshold 2, country `A`
(2 rows) is retained with count `≥ 2` and country `B` (1 row) is dropped
with count `< 2`. -/
theorem panel_balance_threshold_witness :
    2 ≤ countryCount
      [⟨"A", 2000, []⟩, ⟨"A", 2001, []⟩, ⟨"B", 2000, []⟩] "A" ∧
    countryCount
      [⟨"A", 2000, []⟩, ⟨"A", 2001, []⟩, ⟨"B", 2000, []⟩] "B" < 2 := by
  have h := panel_balance_threshold
    [⟨"A", 2000, []⟩, ⟨"A", 2001, []⟩, ⟨"B", 2000, []⟩] 2
  refine ⟨h.1 ⟨"A", 2000, []⟩ (by decide), ?_⟩
  exact h.2.1 ⟨"B", 2000, []⟩ (by decide) (by decide)

/-- C3: the train set is exactly the rows with `year < split_year`, the
test set exactly those with `year ≥ split_year`, and whenever both sides
have a well-defined extreme year, `max(train.year) < min(test.year)`. -/
theorem train_test_split_no_leakage (df : List PRow) (y : ℤ) :
    (∀ r, r ∈ trainSplit df y ↔ r ∈ df ∧ r.year < y) ∧
    (∀ r, r ∈ testSplit df y ↔ r ∈ df ∧ y ≤ r.year) ∧
    (∀ a b, maxYear? (trainSplit df y) = some a →
      minYear? (testSplit df y) = some b → a < b) := by
  refine ⟨?_, ?_, ?_⟩
  · intro r
    rw [trainSplit, List.mem_filter]
    simp
  · intro r
    rw [testSplit, List.mem_filter]
    simp
  · intro a b ha hb
    exact split_leak_free ha hb

/-- Witness for C3 at a concrete panel split at 2020. -/
theorem train_test_split_no_leakage_witness :
    ((⟨"A", 2019, []⟩ : PRow) ∈
      trainSplit [⟨"A", 2019, []⟩, ⟨"A", 2020, []⟩] 2020) ∧
    (2019 : ℤ) < 2020 := by
  have h := train_test_split_no_leakage
    [⟨"A", 2019, []⟩, ⟨"A", 2020, []⟩] 2020
  refine ⟨(h.1 ⟨"A", 2019, []⟩).mpr (by decide), ?_⟩
  exact h.2.2 2019 2020 (by decide) (by decide)

/-- C8 counterexample: on a clean panel whose rows all lie at or past the
split year, the stage persists the clean-panel split although the
no-leakage check (as the code's own assert would evaluate it, with an
empty train side) does not hold — the clean-panel persistence is never
guarded by a check. -/
theorem split_persist_unchecked_counterexample :
    (runSplitStage [⟨"A", 2019, []⟩, ⟨"A", 2020, []⟩]
      [⟨"B", 2021, []⟩] 2020).isSome = true ∧
    checkLeak (trainSplit [⟨"B", 2021, []⟩] 2020)
      (testSplit [⟨"B", 2021, []⟩] 2020) = false := by
  decide

/-- C8 amended: the leakage check guards only the worldbank split — when
the stage persists anything, the worldbank check passed and the whole
stage aborted (nothing written) when it failed; the clean-panel split is
persisted without its own check, but by construction it still satisfies
`max(train.year) < min(test.year)` whenever both sides are non-empty. -/
theorem split_stage_checks_worldbank_only (wb clean : List PRow) (y : ℤ) :
    (∀ out, runSplitStage wb clean y = some out →
      checkLeak (trainSplit wb y) (testSplit wb y) = true ∧
      out = ((trainSplit wb y, testSplit wb y),
        (trainSplit clean y, testSplit clean y)) ∧
      (∀ a b, maxYear? (trainSplit clean y) = some a →
        minYear? (testSplit clean y) = some b → a < b)) ∧
    (checkLeak (trainSplit wb y) (testSplit wb y) = false →
      runSplitStage wb clean y = none) := by
  constructor
  · intro out hout
    unfold runSplitStage at hout
    by_cases hc : checkLeak (trainSplit wb y) (testSplit wb y) = true
    · rw [if_pos hc] at hout
      refine ⟨hc, by simpa using hout.symm, ?_⟩
      intro a b ha hb
      exact split_leak_free ha hb
    · rw [if_neg hc] at hout
      cases hout
  · intro hc
    unfold runSplitStage
    rw [if_neg (by simp [hc])]

/-- Witness for C8 amended at concrete panels. -/
theorem split_stage_checks_worldbank_only_witness :
    checkLeak (trainSplit [⟨"A", 2019, []⟩, ⟨"A", 2020, []⟩] 2020)
      (testSplit [⟨"A", 2019, []⟩, ⟨"A", 2020, []⟩] 2020) = true := by
  have h := split_stage_checks_worldbank_only
    [⟨"A", 2019, []⟩, ⟨"A", 2020, []⟩] [⟨"B", 2018, []⟩] 2020
  exact (h.1 ((trainSplit [⟨"A", 2019, []⟩, ⟨"A", 2020, []⟩] 2020,
      testSplit [⟨"A", 2019, []⟩, ⟨"A", 2020, []⟩] 2020),
      (trainSplit [⟨"B", 2018, []⟩] 2020,
        testSplit [⟨"B", 2018, []⟩] 2020)) (by decide)).1

/-! ## Panel merger join chain (`scripts/merge_panel.py` lines 46-153)

A table is a list of rows, each a join key paired with its remaining
cells.  `merge_panel.py` left-joins each auxiliary source onto the base
worldbank panel with `df.merge(aux, on=['country','year'], how='left')`,
except the static Overpass table which joins `on='country'` alone.  A
pandas left join emits, for each left row, one output row per matching
right row (or a single row padded with nulls when nothing matches). -/

/-- A country-year keyed table: join key `(country, year)` plus cells. -/
abbrev TableKY := List ((String × ℤ) × List (Option ℚ))

/-- Embeds `df.merge(aux, on=key, how='left')` where the right table is
keyed by `f` applied to the left key (`id` for `['country','year']`,
`Prod.fst` for `'country'` alone); `w` is the right table's cell width,
used to pad unmatched rows with nulls. -/
def leftJoinGen {β : Type} [DecidableEq β] (f : (String × ℤ) → β)
    (L : TableKY) (R : List (β × List (Option ℚ))) (w : ℕ) : TableKY :=
  L.flatMap fun r =>
    match R.filter (fun s => decide (s.1 = f r.1)) with
    | [] => [(r.1, r.2 ++ List.replicate w none)]
    | ms => ms.map (fun s => (r.1, r.2 ++ s.2))

/-- An auxiliary source: either country-year keyed (congestion, UITP,
PSA, OpenAQ, LTFRB, JICA, ADB) or static country-keyed (Overpass). -/
inductive AuxTable where
  | keyed (t : List ((String × ℤ) × List (Option ℚ))) (w : ℕ)
  | static (t : List (String × List (Option ℚ))) (w : ℕ)

/-- One `df = df.merge(...)` step of `merge_panel.py`. -/
def mergeStep (acc : TableKY) : AuxTable → TableKY
  | .keyed t w => leftJoinGen id acc t w
  | .static t w => leftJoinGen Prod.fst acc t w

/-- The sequential left-join chain of `merge_panel.py` lines 46-153. -/
def mergeChain (base : TableKY) (auxs : List AuxTable) : TableKY :=
  auxs.foldl mergeStep base

/-- The precondition on an auxiliary source: its join keys are unique. -/
def auxKeysNodup : AuxTable → Prop
  | .keyed t _ => (t.map Prod.fst).Nodup
  | .static t _ => (t.map Prod.fst).Nodup

theorem filter_key_length_le_one {β : Type} [DecidableEq β]
    {R : List (β × List (Option ℚ))} (hn : (R.map Prod.fst).Nodup) (k : β) :
    (R.filter (fun s => decide (s.1 = k))).length ≤ 1 := by
  induction R with
  | nil => simp
  | cons s rs ih =>
    simp only [List.map_cons, List.nodup_cons] at hn
    by_cases hs : s.1 = k
    · have hnil : rs.filter (fun t => decide (t.1 = k)) = [] := by
        apply List.filter_eq_nil_iff.mpr
        intro t ht
        simp only [decide_eq_true_eq]
        intro htk
        exact hn.1 (by
          rw [← hs] at htk
          exact (htk ▸ List.mem_map_of_mem Prod.fst ht))
      rw [List.filter_cons_of_pos (by simpa using hs), hnil]
      simp
    · rw [List.filter_cons_of_neg (by simpa using hs)]
      exact ih hn.2

theorem leftJoinGen_keys {β : Type} [DecidableEq β]
    (f : (String × ℤ) → β) (L : TableKY)
    {R : List (β × List (Option ℚ))} (hn : (R.map Prod.fst).Nodup)
    (w : ℕ) :
    (leftJoinGen f L R w).map Prod.fst = L.map Prod.fst := by
  induction L with
  | nil => rfl
  | cons r rs ih =>
    unfold leftJoinGen at ih ⊢
    rw [List.flatMap_cons, List.map_append, ih, List.map_cons]
    cases hf : R.filter (fun s => decide (s.1 = f r.1)) with
    | nil => rfl
    | cons m ms =>
      have hlen := filter_key_length_le_one hn (f r.1)
      rw [hf] at hlen
      simp at hlen
      subst hlen
      rfl

theorem mergeStep_keys (acc : TableKY) (a : AuxTable)
    (ha : auxKeysNodup a) :
    (mergeStep acc a).map Prod.fst = acc.map Prod.fst := by
  cases a with
  | keyed t w => exact leftJoinGen_keys id acc ha w
  | static t w => exact leftJoinGen_keys Prod.fst acc ha w

theorem mergeChain_keys (auxs : List AuxTable) :
    ∀ base : TableKY, (∀ a ∈ auxs, auxKeysNodup a) →
      (mergeChain base auxs).map Prod.fst = base.map Prod.fst := by
  induction auxs with
  | nil => intro base _; rfl
  | cons a rest ih =>
    intro base ha
    unfold mergeChain at ih ⊢
    rw [List.foldl_cons,
      ih (mergeStep base a) (fun x hx => ha x (List.mem_cons_of_mem a hx))]
    exact mergeStep_keys base a (ha a (List.mem_cons_self a rest))

/-- C4: under the precondition that the base panel and every auxiliary
source have unique join keys, the merge chain preserves the key column
exactly, so the final merged panel's `(country, year)` keys are pairwise
distinct. -/
theorem merge_chain_key_uniqueness (base : TableKY) (auxs : List AuxTable)
    (hb : (base.map Prod.fst).Nodup) (ha : ∀ a ∈ auxs, auxKeysNodup a) :
    (mergeChain base auxs).map Prod.fst = base.map Prod.fst ∧
    ((mergeChain base auxs).map Prod.fst).Nodup := by
  have hkeys := mergeChain_keys auxs base ha
  exact ⟨hkeys, hkeys ▸ hb⟩

/-- Witness for C4: a two-row base panel joined with one keyed and one
static source, all with unique keys, yields pairwise-distinct keys. -/
theorem merge_chain_key_uniqueness_witness :
    ((mergeChain
      [(("PH", 2000), [some 1]), (("PH", 2001), [some 2])]
      [AuxTable.keyed [(("PH", 2000), [some 3])] 1,
       AuxTable.static [("PH", [some 4])] 1]).map Prod.fst).Nodup := by
  exact (merge_chain_key_uniqueness
    [(("PH", 2000), [some 1]), (("PH", 2001), [some 2])]
    [AuxTable.keyed [(("PH", 2000), [some 3])] 1,
     AuxTable.static [("PH", [some 4])] 1]
    (by decide)
    (by
      intro a hax
      simp only [List.mem_cons, List.not_mem_nil, or_false,
        List.mem_singleton] at hax
      rcases hax with h | h <;> subst h <;> simp [auxKeysNodup])).2

/-! ## Transit-investment fallback (`scripts/merge_panel.py` lines 156-168)

After the join chain, `merge_panel.py` fills `transit_investment_gdp`
from proxies when the column is absent or entirely null; with no proxy
columns available it assigns the constant `0` to every row. -/

/-- A table with named columns for the post-merge column operations. -/
structure NamedTable where
  nrows : ℕ
  cols : List (String × List (Option ℚ))

/-- Embeds `name in df.columns`. -/
def NamedTable.hasCol (t : NamedTable) (n : String) : Bool :=
  t.cols.any (fun c => decide (c.1 = n))

/-- Embeds `df[name]` (the cells of a column, when present). -/
def NamedTable.getCol (t : NamedTable) (n : String) :
    Option (List (Option ℚ)) :=
  (t.cols.find? (fun c => decide (c.1 = n))).map Prod.snd

/-- Embeds `df[name] = v`: replace the column when present, else append. -/
def setColCells (cs : List (String × List (Option ℚ))) (n : String)
    (v : List (Option ℚ)) : List (String × List (Option ℚ)) :=
  match cs with
  | [] => [(n, v)]
  | c :: rest => if c.1 = n then (n, v) :: rest else c :: setColCells rest n v

def NamedTable.setCol (t : NamedTable) (n : String) (v : List (Option ℚ)) :
    NamedTable :=
  { t with cols := setColCells t.cols n v }

/-- Pandas elementwise division with NaN propagation (division by a zero
denominator, which pandas sends to infinity, is modelled as null; the
claims under study never reach that value). -/
def odiv (a b : Option ℚ) : Option ℚ :=
  match a, b with
  | some x, some y => if y = 0 then none else some (x / y)
  | _, _ => none

/-- Pandas elementwise scaling with NaN propagation. -/
def oscale (k : ℚ) (a : Option ℚ) : Option ℚ := a.map (fun x => k * x)

/-- Embeds the guard
`'transit_investment_gdp' not in df.columns or df['transit_investment_gdp'].isnull().all()`
(`merge_panel.py` line 157). -/
def transitMissing (t : NamedTable) : Bool :=
  !t.hasCol "transit_investment_gdp" ||
    ((t.getCol "transit_investment_gdp").getD []).all (fun x => x.isNone)

/-- Embeds the proxy-selection block of `merge_panel.py` lines 157-168:
ADB-loan proxy, then road-infrastructure proxy, else the constant `0`. -/
def computeTransitInvestment (t : NamedTable) : NamedTable :=
  if transitMissing t then
    if t.hasCol "adb_loan_amount" && t.hasCol "gdp_current_usd" then
      t.setCol "transit_investment_gdp"
        (List.zipWith (fun a g => oscale 100 (odiv a g))
          ((t.getCol "adb_loan_amount").getD [])
          ((t.getCol "gdp_current_usd").getD []))
    else if t.hasCol "road_length_km" && t.hasCol "gdp_current_usd" then
      t.setCol "transit_investment_gdp"
        (List.zipWith (fun r g => oscale 100 (odiv (oscale 1000000 r) g))
          ((t.getCol "road_length_km").getD [])
          ((t.getCol "gdp_current_usd").getD []))
    else
      t.setCol "transit_investment_gdp" (List.replicate t.nrows (some 0))
  else t

theorem find?_setColCells (cs : List (String × List (Option ℚ)))
    (n : String) (v : List (Option ℚ)) :
    (setColCells cs n v).find? (fun c => decide (c.1 = n)) = some (n, v) := by
  induction cs with
  | nil => simp [setColCells]
  | cons c rest ih =>
    unfold setColCells
    by_cases h : c.1 = n
    · rw [if_pos h]
      simp
    · rw [if_neg h]
      rw [List.find?_cons_of_neg _ (by simpa using h)]
      exact ih

theorem getCol_setCol (t : NamedTable) (n : String) (v : List (Option ℚ)) :
    (t.setCol n v).getCol n = some v := by
  unfold NamedTable.setCol NamedTable.getCol
  rw [find?_setColCells]
  rfl

/-- C10: when `transit_investment_gdp` is absent or entirely null and
neither proxy column pair is available, the merger sets the column to the
constant `0` for every row — a fabricated zero, not a null. -/
theorem transit_investment_zero_fallback (t : NamedTable)
    (h1 : transitMissing t = true)
    (h2 : ¬(t.hasCol "adb_loan_amount" = true ∧
      t.hasCol "gdp_current_usd" = true))
    (h3 : ¬(t.hasCol "road_length_km" = true ∧
      t.hasCol "gdp_current_usd" = true)) :
    (computeTransitInvestment t).getCol "transit_investment_gdp" =
      some (List.replicate t.nrows (some 0)) ∧
    ∀ x ∈ List.replicate t.nrows ((some 0 : Option ℚ)), x ≠ none := by
  constructor
  · unfold computeTransitInvestment
    rw [if_pos h1, if_neg (by
        intro hc
        exact h2 (by simpa using Bool.and_eq_true _ _ |>.mp hc)),
      if_neg (by
        intro hc
        exact h3 (by simpa using Bool.and_eq_true _ _ |>.mp hc))]
    exact getCol_setCol t _ _
  · intro x hx
    rw [List.eq_of_mem_replicate hx]
    simp

/-- Witness for C10: a two-row table with only a `gdp_per_capita` column
gets `transit_investment_gdp = [0, 0]`. -/
theorem transit_investment_zero_fallback_witness :
    (computeTransitInvestment
      ⟨2, [("gdp_per_capita", [some 1, some 2])]⟩).getCol
        "transit_investment_gdp" = some [some 0, some 0] := by
  have h := transit_investment_zero_fallback
    ⟨2, [("gdp_per_capita", [some 1, some 2])]⟩
    (by decide) (by decide) (by decide)
  rw [h.1]
  rfl

/-! ## Outlier winsorizer (`src/preprocessing/outlier_winsorization.py`)

Each numeric column is processed independently (lines 64-76): when the
column varies (`std > 0`) and at least one value lies strictly outside
the 1st/99th percentiles, every value is clipped to that range.  Pandas
`Series.quantile` drops nulls and interpolates linearly between order
statistics; `np.where` comparisons leave nulls untouched. -/

/-- Pandas `Series.quantile(q)` with the default linear interpolation on
the sorted non-null values: with `h = q*(n-1)`, the result is
`s[⌊h⌋] + fract(h) * (s[⌊h⌋+1] - s[⌊h⌋])` (index clamped at `n-1`). -/
def quantileLin (vals : List ℚ) (q : ℚ) : ℚ :=
  if (List.insertionSort (· ≤ ·) vals).length = 0 then 0
  else
    (List.insertionSort (· ≤ ·) vals).getD
      (⌊q * (((List.insertionSort (· ≤ ·) vals).length : ℚ) - 1)⌋).toNat 0 +
    Int.fract (q * (((List.insertionSort (· ≤ ·) vals).length : ℚ) - 1)) *
      ((List.insertionSort (· ≤ ·) vals).getD
        (min ((⌊q * (((List.insertionSort (· ≤ ·) vals).length : ℚ) - 1)⌋).toNat + 1)
          ((List.insertionSort (· ≤ ·) vals).length - 1)) 0 -
      (List.insertionSort (· ≤ ·) vals).getD
        (⌊q * (((List.insertionSort (· ≤ ·) vals).length : ℚ) - 1)⌋).toNat 0)

/-- Embeds `df[col].std() > 0` (line 65): the sample standard deviation
of the non-null values is defined (`n ≥ 2`) and positive exactly when
some value differs from the first. -/
def hasVariation : List ℚ → Bool
  | [] => false
  | v :: rest => rest.any (fun x => decide (x ≠ v))

/-- Embeds the two sequential `np.where` clips of lines 75-76 on one
value: first the upper tail, then the lower tail. -/
def clipVal (p01 p99 v : ℚ) : ℚ :=
  if (if p99 < v then p99 else v) < p01 then p01
  else (if p99 < v then p99 else v)

/-- The clip on one cell; nulls pass through (`NaN > q` is false). -/
def clipCell (p01 p99 : ℚ) (x : Option ℚ) : Option ℚ :=
  x.map (clipVal p01 p99)

/-- Embeds the per-column winsorization of lines 64-76: `p99`/`p01` are
the 99th/1st percentiles of the column's non-null values, `uppers` and
`lowers` count the values strictly outside them, and the clip runs only
when such a value exists. -/
def winsorizeCol (xs : List (Option ℚ)) : List (Option ℚ) :=
  if hasVariation (xs.filterMap id) then
    if 0 < (xs.filterMap id).countP
        (fun v => decide (quantileLin (xs.filterMap id) (99 / 100) < v)) ∨
      0 < (xs.filterMap id).countP
        (fun v => decide (v < quantileLin (xs.filterMap id) (1 / 100))) then
      xs.map (clipCell (quantileLin (xs.filterMap id) (1 / 100))
        (quantileLin (xs.filterMap id) (99 / 100)))
    else xs
  else xs

theorem quantileLin_two_hi (a b : ℚ) (hab : a ≤ b) :
    quantileLin [a, b] (99 / 100) = a + (99 / 100) * (b - a) := by
  unfold quantileLin
  rw [List.insertionSort]
  rw [List.insertionSort]
  rw [List.insertionSort]
  rw [List.orderedInsert]
  rw [List.orderedInsert]
  simp only [if_pos hab]
  norm_num [Int.fract]

theorem quantileLin_two_lo (a b : ℚ) (hab : a ≤ b) :
    quantileLin [a, b] (1 / 100) = a + (1 / 100) * (b - a) := by
  unfold quantileLin
  rw [List.insertionSort]
  rw [List.insertionSort]
  rw [List.insertionSort]
  rw [List.orderedInsert]
  rw [List.orderedInsert]
  simp only [if_pos hab]
  norm_num [Int.fract]

theorem winsorizeCol_eval1 :
    winsorizeCol [some 0, some 100] = [some 1, some 99] := by
  unfold winsorizeCol
  rw [show ([some 0, some 100] : List (Option ℚ)).filterMap id
      = [0, 100] from rfl]
  rw [quantileLin_two_hi 0 100 (by norm_num),
    quantileLin_two_lo 0 100 (by norm_num)]
  norm_num [hasVariation, clipCell, clipVal, List.countP, List.countP.go]

theorem winsorizeCol_eval2 :
    winsorizeCol [some 1, some 99] =
      [some (1 + (1 / 100) * 98), some (1 + (99 / 100) * 98)] := by
  unfold winsorizeCol
  rw [show ([some 1, some 99] : List (Option ℚ)).filterMap id
      = [1, 99] from rfl]
  rw [quantileLin_two_hi 1 99 (by norm_num),
    quantileLin_two_lo 1 99 (by norm_num)]
  norm_num [hasVariation, clipCell, clipVal, List.countP, List.countP.go]

/-- C5 counterexample: on the two-value column `[0, 100]` the first pass
clips to `[1, 99]`, and the second pass — whose percentiles, recomputed
on the clipped values, lie strictly inside the first clip range — clips
again to `[1.98, 98.02]`, so applying the winsorizer twice differs from
applying it once. -/
theorem winsorize_not_idempotent_counterexample :
    winsorizeCol (winsorizeCol [some 0, some 100]) ≠
      winsorizeCol [some 0, some 100] := by
  rw [winsorizeCol_eval1, winsorizeCol_eval2]
  intro h
  have := List.head_eq_of_cons_eq h
  norm_num at this

theorem quantile_index_le {n : ℕ} (hn : 1 ≤ n) {q : ℚ}
    (hq0 : 0 ≤ q) (hq1 : q ≤ 1) :
    (⌊q * ((n : ℚ) - 1)⌋).toNat ≤ n - 1 := by
  have hge : (0 : ℚ) ≤ (n : ℚ) - 1 := by
    have h1 : (1 : ℚ) ≤ (n : ℚ) := by exact_mod_cast hn
    linarith
  have hh : q * ((n : ℚ) - 1) ≤ (n : ℚ) - 1 := by nlinarith
  have hfl : ⌊q * ((n : ℚ) - 1)⌋ ≤ (n : ℤ) - 1 := by
    calc ⌊q * ((n : ℚ) - 1)⌋ ≤ ⌊(n : ℚ) - 1⌋ := Int.floor_mono hh
    _ = (n : ℤ) - 1 := by
        rw [show ((n : ℚ) - 1) = ((((n : ℤ) - 1) : ℤ) : ℚ) by push_cast; ring]
        exact Int.floor_intCast _
  omega

theorem quantile_floor_nonneg {n : ℕ} (hn : 1 ≤ n) {q : ℚ} (hq0 : 0 ≤ q) :
    0 ≤ ⌊q * ((n : ℚ) - 1)⌋ := by
  have hge : (0 : ℚ) ≤ (n : ℚ) - 1 := by
    have h1 : (1 : ℚ) ≤ (n : ℚ) := by exact_mod_cast hn
    linarith
  exact Int.floor_nonneg.mpr (mul_nonneg hq0 hge)

theorem sorted_getD_mono {s : List ℚ} (hs : List.Sorted (· ≤ ·) s)
    {i j : ℕ} (hij : i ≤ j) (hj : j < s.length) :
    s.getD i 0 ≤ s.getD j 0 := by
  have hi : i < s.length := lt_of_le_of_lt hij hj
  rw [List.getD_eq_getElem _ _ hi, List.getD_eq_getElem _ _ hj]
  rcases eq_or_lt_of_le hij with h | h
  · subst h; exact le_refl _
  · exact List.pairwise_iff_getElem.mp hs i j hi hj h

/-- Structural form of a linearly interpolated quantile: a convex
combination of two members of the list, the lower one at most the higher
one, with weight in `[0, 1)`. -/
theorem quantileLin_repr {vals : List ℚ} {q : ℚ} (hne : vals ≠ [])
    (hq0 : 0 ≤ q) (hq1 : q ≤ 1) :
    ∃ lo hi f : ℚ, lo ∈ vals ∧ hi ∈ vals ∧ lo ≤ hi ∧ 0 ≤ f ∧ f < 1 ∧
      quantileLin vals q = lo + f * (hi - lo) := by
  unfold quantileLin
  have hperm := List.perm_insertionSort (· ≤ · : ℚ → ℚ → Prop) vals
  set s := List.insertionSort (· ≤ ·) vals with hs_def
  have hsorted : List.Sorted (· ≤ ·) s := List.sorted_insertionSort _ vals
  have hn : 1 ≤ s.length := by
    rw [hperm.length_eq]
    exact List.length_pos_of_ne_nil hne
  rw [if_neg (by omega)]
  set h : ℚ := q * ((s.length : ℚ) - 1) with hh_def
  set i : ℕ := (⌊h⌋).toNat with hi_def
  have hidx : i ≤ s.length - 1 := quantile_index_le hn hq0 hq1
  have hi1 : i < s.length := by omega
  have hi2 : min (i + 1) (s.length - 1) < s.length := by omega
  refine ⟨s.getD i 0, s.getD (min (i + 1) (s.length - 1)) 0, Int.fract h,
    ?_, ?_, ?_, Int.fract_nonneg h, Int.fract_lt_one h, rfl⟩
  · rw [List.getD_eq_getElem _ _ hi1]
    exact hperm.mem_iff.mp (List.getElem_mem hi1)
  · rw [List.getD_eq_getElem _ _ hi2]
    exact hperm.mem_iff.mp (List.getElem_mem hi2)
  · exact sorted_getD_mono hsorted (by omega) hi2

theorem quantileLin_ge {vals : List ℚ} {a q : ℚ} (hne : vals ≠ [])
    (hq0 : 0 ≤ q) (hq1 : q ≤ 1) (hall : ∀ v ∈ vals, a ≤ v) :
    a ≤ quantileLin vals q := by
  obtain ⟨lo, hi, f, hlo, hhi, hlohi, hf0, hf1, heq⟩ :=
    quantileLin_repr hne hq0 hq1
  have h1 := hall lo hlo
  have h2 := hall hi hhi
  rw [heq]
  nlinarith

theorem quantileLin_le {vals : List ℚ} {b q : ℚ} (hne : vals ≠ [])
    (hq0 : 0 ≤ q) (hq1 : q ≤ 1) (hall : ∀ v ∈ vals, v ≤ b) :
    quantileLin vals q ≤ b := by
  obtain ⟨lo, hi, f, hlo, hhi, hlohi, hf0, hf1, heq⟩ :=
    quantileLin_repr hne hq0 hq1
  have h1 := hall lo hlo
  have h2 := hall hi hhi
  rw [heq]
  nlinarith

/-- Monotonicity of the interpolated quantile in the quantile level. -/
theorem quantileLin_mono {vals : List ℚ} (hne : vals ≠ []) {q1 q2 : ℚ}
    (h0 : 0 ≤ q1) (h12 : q1 ≤ q2) (h2 : q2 ≤ 1) :
    quantileLin vals q1 ≤ quantileLin vals q2 := by
  unfold quantileLin
  have hperm := List.perm_insertionSort (· ≤ · : ℚ → ℚ → Prop) vals
  set s := List.insertionSort (· ≤ ·) vals with hs_def
  have hsorted : List.Sorted (· ≤ ·) s := List.sorted_insertionSort _ vals
  have hn : 1 ≤ s.length := by
    rw [hperm.length_eq]
    exact List.length_pos_of_ne_nil hne
  rw [if_neg (by omega), if_neg (by omega)]
  have hge : (0 : ℚ) ≤ (s.length : ℚ) - 1 := by
    have hcast : (1 : ℚ) ≤ (s.length : ℚ) := by exact_mod_cast hn
    linarith
  set ha : ℚ := q1 * ((s.length : ℚ) - 1) with ha_def
  set hb : ℚ := q2 * ((s.length : ℚ) - 1) with hb_def
  have hab : ha ≤ hb := mul_le_mul_of_nonneg_right h12 hge
  set ia : ℕ := (⌊ha⌋).toNat with ia_def
  set ib : ℕ := (⌊hb⌋).toNat with ib_def
  have hfa0 : 0 ≤ ⌊ha⌋ := quantile_floor_nonneg hn h0
  have hfb0 : 0 ≤ ⌊hb⌋ := quantile_floor_nonneg hn (le_trans h0 h12)
  have hflab : ⌊ha⌋ ≤ ⌊hb⌋ := Int.floor_mono hab
  have hiab : ia ≤ ib := by omega
  have hidxa : ia ≤ s.length - 1 :=
    quantile_index_le hn h0 (le_trans h12 h2)
  have hidxb : ib ≤ s.length - 1 :=
    quantile_index_le hn (le_trans h0 h12) h2
  have hia1 : ia < s.length := by omega
  have hib1 : ib < s.length := by omega
  have hia2 : min (ia + 1) (s.length - 1) < s.length := by omega
  have hib2 : min (ib + 1) (s.length - 1) < s.length := by omega
  have hloa : s.getD ia 0 ≤ s.getD (min (ia + 1) (s.length - 1)) 0 :=
    sorted_getD_mono hsorted (by omega) hia2
  have hlob : s.getD ib 0 ≤ s.getD (min (ib + 1) (s.length - 1)) 0 :=
    sorted_getD_mono hsorted (by omega) hib2
  rcases Nat.lt_or_ge ia ib with hlt | hge2
  · have hstep : min (ia + 1) (s.length - 1) ≤ ib := by omega
    have hmid : s.getD (min (ia + 1) (s.length - 1)) 0 ≤ s.getD ib 0 :=
      sorted_getD_mono hsorted hstep hib1
    have hfa1 := Int.fract_lt_one ha
    have hfa0q := Int.fract_nonneg ha
    have hfb0q := Int.fract_nonneg hb
    nlinarith [mul_nonneg hfb0q (sub_nonneg.mpr hlob),
      mul_nonneg (by linarith : (0 : ℚ) ≤ 1 - Int.fract ha)
        (sub_nonneg.mpr hloa),
      hmid]
  · have hieq : ia = ib := le_antisymm hiab hge2
    have hfleq : ⌊ha⌋ = ⌊hb⌋ := by omega
    rw [hieq]
    have hfract : Int.fract hb - Int.fract ha = hb - ha := by
      unfold Int.fract
      rw [hfleq]
      ring
    have hfa0q := Int.fract_nonneg ha
    nlinarith [mul_nonneg (by linarith : (0 : ℚ) ≤ hb - ha)
      (sub_nonneg.mpr hlob), hfract]


theorem hasVariation_ne_nil {vals : List ℚ}
    (h : hasVariation vals = true) : vals ≠ [] := by
  intro he
  subst he
  simp [hasVariation] at h

theorem filterMap_id_map (f : ℚ → ℚ) (xs : List (Option ℚ)) :
    (xs.map (Option.map f)).filterMap id = (xs.filterMap id).map f := by
  induction xs with
  | nil => rfl
  | cons x t ih => cases x <;> simp [ih]

theorem clipCell_eq (p01 p99 : ℚ) :
    clipCell p01 p99 = Option.map (clipVal p01 p99) := rfl

theorem clipVal_bounds {p01 p99 : ℚ} (h : p01 ≤ p99) (v : ℚ) :
    p01 ≤ clipVal p01 p99 v ∧ clipVal p01 p99 v ≤ p99 := by
  unfold clipVal
  split_ifs <;> constructor <;> linarith

theorem mem_filterMap_id {v : ℚ} {l : List (Option ℚ)} :
    v ∈ l.filterMap id ↔ some v ∈ l := by
  simp

theorem winsorizeCol_of_not_var {l : List (Option ℚ)}
    (h : ¬hasVariation (l.filterMap id) = true) : winsorizeCol l = l := by
  unfold winsorizeCol
  rw [if_neg h]

theorem winsorizeCol_of_no_outliers {l : List (Option ℚ)}
    (hvar : hasVariation (l.filterMap id) = true)
    (h : ¬(0 < (l.filterMap id).countP
        (fun v => decide (quantileLin (l.filterMap id) (99 / 100) < v)) ∨
      0 < (l.filterMap id).countP
        (fun v => decide (v < quantileLin (l.filterMap id) (1 / 100))))) :
    winsorizeCol l = l := by
  unfold winsorizeCol
  rw [if_pos hvar, if_neg h]

theorem winsorizeCol_clip {l : List (Option ℚ)}
    (hvar : hasVariation (l.filterMap id) = true)
    (h : 0 < (l.filterMap id).countP
        (fun v => decide (quantileLin (l.filterMap id) (99 / 100) < v)) ∨
      0 < (l.filterMap id).countP
        (fun v => decide (v < quantileLin (l.filterMap id) (1 / 100)))) :
    winsorizeCol l = l.map (clipCell (quantileLin (l.filterMap id) (1 / 100))
      (quantileLin (l.filterMap id) (99 / 100))) := by
  unfold winsorizeCol
  rw [if_pos hvar, if_pos h]

/-- C5 amended: the winsorizer need not be idempotent — the percentiles
recomputed on a clipped column can lie strictly inside the first clip
range and trigger further clipping — but a pass that changes nothing is a
fixed point (so a second application is then the identity), and every
value produced by the second application still lies within the closed
interval between the 1st and 99th percentiles computed by the first. -/
theorem winsorize_second_pass_within_first_bounds (xs : List (Option ℚ)) :
    (winsorizeCol xs = xs →
      winsorizeCol (winsorizeCol xs) = winsorizeCol xs) ∧
    (winsorizeCol xs ≠ xs →
      ∀ v : ℚ, some v ∈ winsorizeCol (winsorizeCol xs) →
        quantileLin (xs.filterMap id) (1 / 100) ≤ v ∧
        v ≤ quantileLin (xs.filterMap id) (99 / 100)) := by
  constructor
  · intro h
    rw [h]
    exact h
  · intro hne v hv
    by_cases hvar : hasVariation (xs.filterMap id) = true
    case neg => exact absurd (winsorizeCol_of_not_var hvar) hne
    by_cases hout : 0 < (xs.filterMap id).countP
        (fun v => decide (quantileLin (xs.filterMap id) (99 / 100) < v)) ∨
      0 < (xs.filterMap id).countP
        (fun v => decide (v < quantileLin (xs.filterMap id) (1 / 100)))
    case neg => exact absurd (winsorizeCol_of_no_outliers hvar hout) hne
    have honce := winsorizeCol_clip hvar hout
    have hvne : xs.filterMap id ≠ [] := hasVariation_ne_nil hvar
    have hpp : quantileLin (xs.filterMap id) (1 / 100) ≤
        quantileLin (xs.filterMap id) (99 / 100) :=
      quantileLin_mono hvne (by norm_num) (by norm_num) (by norm_num)
    have honce_vals : (winsorizeCol xs).filterMap id =
        (xs.filterMap id).map (clipVal (quantileLin (xs.filterMap id) (1 / 100))
          (quantileLin (xs.filterMap id) (99 / 100))) := by
      rw [honce]
      exact filterMap_id_map _ _
    have hbound : ∀ w ∈ (winsorizeCol xs).filterMap id,
        quantileLin (xs.filterMap id) (1 / 100) ≤ w ∧
        w ≤ quantileLin (xs.filterMap id) (99 / 100) := by
      intro w hw
      rw [honce_vals] at hw
      obtain ⟨u, hu, huw⟩ := List.mem_map.mp hw
      rw [← huw]
      exact clipVal_bounds hpp u
    have hvne2 : (winsorizeCol xs).filterMap id ≠ [] := by
      rw [honce_vals]
      intro hmm
      exact hvne (by
        have := List.map_eq_nil_iff.mp hmm
        exact this)
    by_cases hvar2 : hasVariation ((winsorizeCol xs).filterMap id) = true
    case neg =>
      rw [winsorizeCol_of_not_var hvar2] at hv
      exact hbound v (mem_filterMap_id.mpr hv)
    by_cases hout2 : 0 < ((winsorizeCol xs).filterMap id).countP
        (fun v => decide (quantileLin ((winsorizeCol xs).filterMap id) (99 / 100) < v)) ∨
      0 < ((winsorizeCol xs).filterMap id).countP
        (fun v => decide (v < quantileLin ((winsorizeCol xs).filterMap id) (1 / 100)))
    case neg =>
      rw [winsorizeCol_of_no_outliers hvar2 hout2] at hv
      exact hbound v (mem_filterMap_id.mpr hv)
    rw [winsorizeCol_clip hvar2 hout2] at hv
    have hp01b : quantileLin (xs.filterMap id) (1 / 100) ≤
        quantileLin ((winsorizeCol xs).filterMap id) (1 / 100) :=
      quantileLin_ge hvne2 (by norm_num) (by norm_num)
        (fun w hw => (hbound w hw).1)
    have hp99b : quantileLin ((winsorizeCol xs).filterMap id) (99 / 100) ≤
        quantileLin (xs.filterMap id) (99 / 100) :=
      quantileLin_le hvne2 (by norm_num) (by norm_num)
        (fun w hw => (hbound w hw).2)
    have hppb : quantileLin ((winsorizeCol xs).filterMap id) (1 / 100) ≤
        quantileLin ((winsorizeCol xs).filterMap id) (99 / 100) :=
      quantileLin_mono hvne2 (by norm_num) (by norm_num) (by norm_num)
    have hmem : v ∈ ((winsorizeCol xs).map
        (clipCell (quantileLin ((winsorizeCol xs).filterMap id) (1 / 100))
          (quantileLin ((winsorizeCol xs).filterMap id) (99 / 100)))).filterMap id :=
      mem_filterMap_id.mpr hv
    rw [clipCell_eq, filterMap_id_map] at hmem
    obtain ⟨u, hu, huv⟩ := List.mem_map.mp hmem
    have hb := clipVal_bounds hppb u
    rw [← huv]
    exact ⟨le_trans hp01b hb.1, le_trans hb.2 hp99b⟩

/-- Witness for the amended C5 claim: on the column `[0, 100]` (which the
first pass changes), the value `1 + 98/100` produced by the second pass
lies within the first pass's clip interval `[1, 99]`. -/
theorem winsorize_second_pass_within_first_bounds_witness :
    quantileLin (([some 0, some 100] : List (Option ℚ)).filterMap id)
      (1 / 100) ≤ 1 + (1 / 100) * 98 ∧
    1 + (1 / 100) * 98 ≤
      quantileLin (([some 0, some 100] : List (Option ℚ)).filterMap id)
        (99 / 100) := by
  refine (winsorize_second_pass_within_first_bounds [some 0, some 100]).2
    ?_ (1 + (1 / 100) * 98) ?_
  · rw [winsorizeCol_eval1]
    intro hq
    norm_num at hq
  · rw [winsorizeCol_eval1, winsorizeCol_eval2]
    exact List.mem_cons_self _ _

/-! ## Missing-value handler (`src/preprocessing/handle_missing_values.py`)

The handler operates per numeric column on a table sorted by
`(country, year)` (the sort affects only interpolation weights, not the
null structure).  A column is represented by the country of each row
(`ks`) and the cells (`cs`).  Lines 50-72 dispatch on the column name:
smooth economic columns are linearly interpolated within each country
(`limit_direction='both'`, which clamps at the group edges), sparse
policy columns are forward- then backward-filled within each country, and
any other numeric column is interpolated; lines 81-84 then fill any
remaining null with the column's global mean (a no-op when the whole
column is null, since the mean of an empty set is NaN and filling with
NaN changes nothing). -/

/-- Index of the nearest earlier row of the same country carrying an
observation, if any. -/
def prevIdx (ks : List String) (cs : List (Option ℚ)) (i : ℕ) : Option ℕ :=
  ((List.range i).filter (fun j =>
    decide (ks.getD j "" = ks.getD i "") && (cs.getD j none).isSome)).getLast?

/-- Index of the nearest later row of the same country carrying an
observation, if any. -/
def nextIdx (ks : List String) (cs : List (Option ℚ)) (i : ℕ) : Option ℕ :=
  ((List.range cs.length).filter (fun j =>
    decide (i < j) && decide (ks.getD j "" = ks.getD i "") &&
      (cs.getD j none).isSome)).head?

/-- Position of row `i` within its country's group (pandas interpolates
positionally inside each `groupby('country')` group). -/
def posInGroup (ks : List String) (i : ℕ) : ℕ :=
  ((List.range i).filter (fun j => decide (ks.getD j "" = ks.getD i ""))).length

/-- One cell of `x.interpolate(method='linear', limit_direction='both')`
within the country groups: an existing value is kept; a null between two
observations is linearly interpolated by within-group position; a null
past the last (before the first) observation is clamped to it. -/
def groupInterpCell (ks : List String) (cs : List (Option ℚ)) (i : ℕ) :
    Option ℚ :=
  match cs.getD i none with
  | some v => some v
  | none =>
    match prevIdx ks cs i, nextIdx ks cs i with
    | some j, some k =>
      match cs.getD j none, cs.getD k none with
      | some vj, some vk =>
        some (vj + (vk - vj) * (((posInGroup ks i : ℚ) - (posInGroup ks j : ℚ)) /
          ((posInGroup ks k : ℚ) - (posInGroup ks j : ℚ))))
      | _, _ => none
    | some j, none => cs.getD j none
    | none, some k => cs.getD k none
    | none, none => none

/-- One cell of `x.fillna(method='ffill').fillna(method='bfill')` within
the country groups. -/
def groupFfillBfillCell (ks : List String) (cs : List (Option ℚ)) (i : ℕ) :
    Option ℚ :=
  match cs.getD i none with
  | some v => some v
  | none =>
    match prevIdx ks cs i with
    | some j => cs.getD j none
    | none =>
      match nextIdx ks cs i with
      | some k => cs.getD k none
      | none => none

def groupInterp (ks : List String) (cs : List (Option ℚ)) :
    List (Option ℚ) :=
  (List.range cs.length).map (groupInterpCell ks cs)

def groupFfillBfill (ks : List String) (cs : List (Option ℚ)) :
    List (Option ℚ) :=
  (List.range cs.length).map (groupFfillBfillCell ks cs)

/-- Lower-cased characters of a column name (`col.lower()`). -/
def lowerStr (s : String) : List Char := s.data.map Char.toLower

/-- Substring test on character lists (`term in col`). -/
def isInfixB (p : List Char) : List Char → Bool
  | [] => p.isEmpty
  | c :: rest => p.isPrefixOf (c :: rest) || isInfixB p rest

def containsTerm (col term : String) : Bool := isInfixB term.data (lowerStr col)

def smoothTrendVars : List String :=
  ["gdp_per_capita", "gdp_current_usd", "population", "gdp_growth"]

def sparseVars : List String :=
  ["modal_share_public", "transit_investment_gdp", "rail_km_built",
    "fleet_size"]

/-- Embeds the smooth-column test of line 54. -/
def isSmoothCol (n : String) : Bool :=
  decide (n ∈ smoothTrendVars) ||
    ["gdp", "population", "growth"].any (containsTerm n)

/-- Embeds the sparse-column test of line 61 (reached only when the
smooth test failed, as in the `elif`). -/
def isSparseCol (n : String) : Bool :=
  decide (n ∈ sparseVars) ||
    ["modal", "transit", "rail", "fleet"].any (containsTerm n)

/-- The per-column group-wise imputation dispatch of lines 50-72. -/
def groupImpute (name : String) (ks : List String) (cs : List (Option ℚ)) :
    List (Option ℚ) :=
  if isSmoothCol name then groupInterp ks cs
  else if isSparseCol name then groupFfillBfill ks cs
  else groupInterp ks cs

/-- Embeds `df[col].mean()`: pandas skips nulls and yields NaN on an
all-null column. -/
def meanOpt (cs : List (Option ℚ)) : Option ℚ :=
  if (cs.filterMap id).length = 0 then none
  else some ((cs.filterMap id).sum / ((cs.filterMap id).length : ℚ))

/-- Embeds `fillna(value)`: filling with NaN changes nothing. -/
def fillWith : Option ℚ → List (Option ℚ) → List (Option ℚ)
  | none, cs => cs
  | some v, cs => cs.map (fun x => some (x.getD v))

/-- The whole per-column pass of `handle_missing_values.py`: group-wise
imputation (lines 50-72), then the global-mean residual fill guarded by
`df[col].isnull().any()` (lines 81-84). -/
def handleColumn (name : String) (ks : List String)
    (cs : List (Option ℚ)) : List (Option ℚ) :=
  if (groupImpute name ks cs).any (fun x => x.isNone) then
    fillWith (meanOpt (groupImpute name ks cs)) (groupImpute name ks cs)
  else groupImpute name ks cs

theorem groupImpute_eval_c6 :
    groupImpute "transit_investment_gdp" ["A", "B"] [some 1, none] =
      [some 1, none] := by
  decide

/-- C6 counterexample: country `B` (row 1) has zero observations of the
column, yet after the handler its cell holds the fabricated global mean
`1` of the other country's data instead of staying null — the handler's
final global-mean fill (lines 81-84) overrides the claimed structural
nulls. -/
theorem missing_handler_fabricates_counterexample :
    handleColumn "transit_investment_gdp" ["A", "B"] [some 1, none] =
      [some 1, some 1] ∧
    (handleColumn "transit_investment_gdp" ["A", "B"]
      [some 1, none]).getD 1 none ≠ none := by
  have heval : handleColumn "transit_investment_gdp" ["A", "B"]
      [some 1, none] = [some 1, some 1] := by
    have hfm : List.filterMap id [some 1, none] = [(1 : ℚ)] := rfl
    have hm : meanOpt [some 1, none] = some 1 := by
      unfold meanOpt
      rw [hfm]
      norm_num
    unfold handleColumn
    rw [groupImpute_eval_c6, if_pos (by decide), hm]
    simp [fillWith]
  refine ⟨heval, ?_⟩
  rw [heval]
  simp

theorem groupImpute_length (name : String) (ks : List String)
    (cs : List (Option ℚ)) :
    (groupImpute name ks cs).length = cs.length := by
  unfold groupImpute groupInterp groupFfillBfill
  split_ifs <;> simp

theorem fillWith_length (m : Option ℚ) (g : List (Option ℚ)) :
    (fillWith m g).length = g.length := by
  cases m <;> simp [fillWith]

theorem groupImpute_keep {name : String} {ks : List String}
    {cs : List (Option ℚ)} {i : ℕ} {v : ℚ} (hi : i < cs.length)
    (h : cs.getD i none = some v) :
    (groupImpute name ks cs).getD i none = some v := by
  unfold groupImpute
  split_ifs <;>
  · first
    | (unfold groupInterp
       rw [List.getD_eq_getElem _ _ (by simpa using hi), List.getElem_map,
         List.getElem_range]
       unfold groupInterpCell
       rw [h])
    | (unfold groupFfillBfill
       rw [List.getD_eq_getElem _ _ (by simpa using hi), List.getElem_map,
         List.getElem_range]
       unfold groupFfillBfillCell
       rw [h])

theorem prevIdx_of_all_none {ks : List String} {cs : List (Option ℚ)}
    (hgetD : ∀ j, cs.getD j none = none) (i : ℕ) :
    prevIdx ks cs i = none := by
  unfold prevIdx
  rw [List.filter_eq_nil_iff.mpr (by
    intro j hj
    have hj2 := hgetD j
    simp only [List.getD, List.get?_eq_getElem?] at hj2
    simp [hj2])]
  rfl

theorem nextIdx_of_all_none {ks : List String} {cs : List (Option ℚ)}
    (hgetD : ∀ j, cs.getD j none = none) (i : ℕ) :
    nextIdx ks cs i = none := by
  unfold nextIdx
  rw [List.filter_eq_nil_iff.mpr (by
    intro j hj
    have hj2 := hgetD j
    simp only [List.getD, List.get?_eq_getElem?] at hj2
    simp [hj2])]
  rfl

theorem groupImpute_all_none (name : String) (ks : List String)
    {cs : List (Option ℚ)} (h : ∀ x ∈ cs, x = none) :
    ∀ x ∈ groupImpute name ks cs, x = none := by
  have hgetD : ∀ j, cs.getD j none = none := by
    intro j
    by_cases hj : j < cs.length
    · rw [List.getD_eq_getElem _ _ hj]
      exact h _ (List.getElem_mem hj)
    · rw [List.getD_eq_default _ _ (by omega)]
  intro x hx
  unfold groupImpute at hx
  split_ifs at hx <;>
  · first
    | (unfold groupInterp at hx
       obtain ⟨i, hi, hcell⟩ := List.mem_map.mp hx
       rw [← hcell]
       unfold groupInterpCell
       rw [hgetD i, prevIdx_of_all_none hgetD, nextIdx_of_all_none hgetD])
    | (unfold groupFfillBfill at hx
       obtain ⟨i, hi, hcell⟩ := List.mem_map.mp hx
       rw [← hcell]
       unfold groupFfillBfillCell
       rw [hgetD i, prevIdx_of_all_none hgetD, nextIdx_of_all_none hgetD])

/-- C6 amended: the handler's output column has the input's length, is
entirely non-null as soon as the column carries at least one observation
anywhere in the table (a country with zero observations receives the
fabricated global mean rather than staying null), and stays entirely
null only when the whole column is null (undefined global mean). -/
theorem missing_handler_total_unless_all_null (name : String)
    (ks : List String) (cs : List (Option ℚ)) :
    (handleColumn name ks cs).length = cs.length ∧
    ((∃ v : ℚ, some v ∈ cs) →
      ∀ i, i < cs.length → (handleColumn name ks cs).getD i none ≠ none) ∧
    ((∀ x ∈ cs, x = none) → ∀ x ∈ handleColumn name ks cs, x = none) := by
  refine ⟨?_, ?_, ?_⟩
  · unfold handleColumn
    split_ifs
    · rw [fillWith_length, groupImpute_length]
    · exact groupImpute_length name ks cs
  · rintro ⟨v, hv⟩ i hi
    obtain ⟨i0, hi0, hvi0⟩ := List.mem_iff_getElem.mp hv
    have hkeep : (groupImpute name ks cs).getD i0 none = some v :=
      groupImpute_keep hi0 (by rw [List.getD_eq_getElem _ _ hi0, hvi0])
    have hgl : i0 < (groupImpute name ks cs).length := by
      rw [groupImpute_length]
      exact hi0
    have hmemg : some v ∈ groupImpute name ks cs := by
      rw [List.getD_eq_getElem _ _ hgl] at hkeep
      rw [← hkeep]
      exact List.getElem_mem hgl
    have hgi : i < (groupImpute name ks cs).length := by
      rw [groupImpute_length]
      exact hi
    unfold handleColumn
    split_ifs with hany
    · have hvmem : v ∈ List.filterMap id (groupImpute name ks cs) :=
        mem_filterMap_id.mpr hmemg
      have hne : ¬(List.filterMap id (groupImpute name ks cs)).length = 0 := by
        intro h0
        rw [List.length_eq_zero] at h0
        rw [h0] at hvmem
        cases hvmem
      unfold meanOpt
      rw [if_neg hne]
      unfold fillWith
      rw [List.getD_eq_getElem _ _ (by simpa using hgi), List.getElem_map]
      simp
    · have hnone : ∀ x ∈ groupImpute name ks cs, x.isNone = false := by
        intro x hx
        by_contra hxx
        exact hany (List.any_eq_true.mpr ⟨x, hx, by
          cases hb : x.isNone
          · exact absurd hb hxx
          · rfl⟩)
      rw [List.getD_eq_getElem _ _ hgi]
      intro hEq
      have := hnone _ (List.getElem_mem hgi)
      rw [hEq] at this
      cases this
  · intro h
    have hg := groupImpute_all_none name ks h
    unfold handleColumn
    split_ifs with hany
    · have hmean : meanOpt (groupImpute name ks cs) = none := by
        unfold meanOpt
        rw [if_pos (by
          rw [List.length_eq_zero, List.filterMap_eq_nil_iff]
          intro x hx
          rw [hg x hx]
          rfl)]
      rw [hmean]
      exact hg
    · exact hg

/-- Witness for the amended C6 claim: the column `[some 1, none]` has one
observation, so after the handler the second row (country `B`, zero
observations) is non-null. -/
theorem missing_handler_total_unless_all_null_witness :
    (handleColumn "transit_investment_gdp" ["A", "B"]
      [some 1, none]).getD 1 none ≠ none := by
  exact (missing_handler_total_unless_all_null "transit_investment_gdp"
    ["A", "B"] [some 1, none]).2.1 ⟨1, by decide⟩ 1 (by decide)

/-! ## Congestion proxy estimator
(`src/data_collection/data_gathering_congestion_proxy.py`)

The script aggregates city-level TomTom measurements to country level
(lines 42-45), estimates congestion for every worldbank row — by a
Random Forest when at least 20 matched observations exist (lines
163-235), else by the rule-based formula (lines 60-161) — and combines
the actual and estimated tables: concatenate, sort by
`(country, year, estimation_method)` and keep the first row per
`(country, year)` key (`'actual_tomtom'` sorts before
`'ml_random_forest'` and `'rule_based'`), then set `data_source` from
`estimation_method` and re-sort by `(country, year)`. -/

/-- A TomTom city-year measurement row. -/
structure TRow where
  city : String
  country : String
  year : ℤ
  congestion : Option ℚ
  tti : Option ℚ
deriving DecidableEq, Repr

/-- A worldbank country-year row with the covariates the estimators
read. -/
structure WBRow where
  country : String
  year : ℤ
  gdpPerCapita : Option ℚ
  urbanPct : Option ℚ
  roadPerCapita : Option ℚ
  population : Option ℚ
deriving DecidableEq, Repr

/-- A row of the combined congestion table before the final
`data_source` column is added. -/
structure CRow where
  country : String
  year : ℤ
  congestion : Option ℚ
  tti : Option ℚ
  method : String
deriving DecidableEq, Repr

/-- A row of the persisted comprehensive congestion dataset. -/
structure OutRow where
  country : String
  year : ℤ
  congestion : Option ℚ
  tti : Option ℚ
  method : String
  dataSource : String
deriving DecidableEq, Repr

def CRow.key (r : CRow) : String × ℤ := (r.country, r.year)

/-- The distinct `(country, year)` keys of the TomTom table (the groups
of `tomtom_df.groupby(['country', 'year'])`, lines 42-45). -/
def tomtomKeys (T : List TRow) : List (String × ℤ) :=
  (T.map (fun t => (t.country, t.year))).dedup

def tomtomGroup (T : List TRow) (k : String × ℤ) : List TRow :=
  T.filter (fun t => decide (t.country = k.1) && decide (t.year = k.2))

/-- Embeds the city-to-country aggregation `tomtom_country` (lines
42-45, mean of each group, nulls skipped) with the
`estimation_method = 'actual_tomtom'` tag added at lines 155/230. -/
def aggTomTom (T : List TRow) : List CRow :=
  (tomtomKeys T).map (fun k =>
    ⟨k.1, k.2, meanOpt ((tomtomGroup T k).map (fun t => t.congestion)),
      meanOpt ((tomtomGroup T k).map (fun t => t.tti)), "actual_tomtom"⟩)

/-- Python/pandas comparison against a possibly-NaN value: false on
NaN. -/
def oltVal (x : Option ℚ) (c : ℚ) : Bool :=
  match x with
  | some v => decide (v < c)
  | none => false

def ogtVal (x : Option ℚ) (c : ℚ) : Bool :=
  match x with
  | some v => decide (c < v)
  | none => false

/-- The GDP bracket effect of `estimate_congestion` (lines 76-84); all
bracket tests fail on a NaN GDP, landing in the final `else`. -/
def gdpEffect (gdp : Option ℚ) : ℚ :=
  if oltVal gdp 5000 then 5
  else if oltVal gdp 15000 then 20
  else if oltVal gdp 40000 then 12
  else 5

/-- The road-capacity effect (lines 90-95) on the value of
`row.get('road_per_capita', 1.0)`. -/
def roadEffect (road : Option ℚ) : ℚ :=
  if ogtVal road 0 then max 0 (10 - road.getD 0 * 3) else 10

/-- The population-size effect (lines 97-106). -/
def popEffect (pop : Option ℚ) : ℚ :=
  if ogtVal pop 100000000 then 8
  else if ogtVal pop 50000000 then 5
  else if ogtVal pop 10000000 then 3
  else 0

def asiaHighCongestion : List String :=
  ["Philippines", "Thailand", "Indonesia", "Vietnam", "India",
    "Bangladesh", "Pakistan"]

def developedGoodTransit : List String :=
  ["Singapore", "Japan", "South Korea", "Germany", "Netherlands",
    "Denmark", "Switzerland"]

def carDependentCountries : List String :=
  ["United States", "Australia", "Canada"]

def latamMegacities : List String :=
  ["Colombia", "Brazil", "Mexico", "Peru", "Argentina"]

/-- The regional adjustment (lines 108-130): four sequential `if`
statements, a later match overwriting an earlier one. -/
def regionalEffect (country : String) (urban : Option ℚ) : ℚ :=
  if country ∈ latamMegacities ∧ ogtVal urban 70 then 12
  else if country ∈ carDependentCountries then 5
  else if country ∈ developedGoodTransit then -10
  else if country ∈ asiaHighCongestion then 15
  else 0

/-- Python `min(75, x)` where `x` may be NaN: `min` keeps its first
argument when the comparison with NaN is false. -/
def pymin75 (x : Option ℚ) : ℚ :=
  match x with
  | some v => if v < 75 then v else 75
  | none => 75

/-- Python `max(15, m)` on the (never-NaN) result of `pymin75`. -/
def pymax15 (v : ℚ) : ℚ := if 15 < v then v else 15

/-- The full rule-based estimate of one row (lines 65-139): base 25 plus
the five effects plus the noise draw, bounded into `[15, 75]` by
Python's `max`/`min` (which resolve a NaN sum — possible when
`urban_population_pct` is NaN — to 75).  `hasRoad` records whether the
worldbank table has a `road_per_capita` column; when absent, `row.get`
returns the default `1.0`. -/
def ruleEstimate (hasRoad : Bool) (w : WBRow) (noise : ℚ) : ℚ :=
  pymax15 (pymin75 (w.urbanPct.map (fun u =>
    25 + gdpEffect w.gdpPerCapita + u / 100 * 15 +
      roadEffect (if hasRoad then w.roadPerCapita else some 1) +
      popEffect w.population + regionalEffect w.country w.urbanPct +
      noise)))

/-- Modelled pseudo-random stream for `np.random.normal(0, 2)` (line
136): numpy's global generator is an external library; given a fixed
seed it is a fixed stream, modelled by a linear congruential generator
whose draws lie in `[-2, 2]`. -/
def lcgNext (s : ℕ) : ℕ := (1103515245 * s + 12345) % 2147483648

def noiseOf (s : ℕ) : ℚ := ((lcgNext s % 401 : ℕ) : ℚ) / 100 - 2

/-- The rule-based estimated table (lines 141-152): one row per
worldbank row, `travel_time_index = 1 + estimate/100`, tag
`'rule_based'`; the noise stream advances row by row. -/
def estimatedRule (hasRoad : Bool) : List WBRow → ℕ → List CRow
  | [], _ => []
  | w :: ws, s =>
    ⟨w.country, w.year, some (ruleEstimate hasRoad w (noiseOf s)),
      some (1 + ruleEstimate hasRoad w (noiseOf s) / 100), "rule_based"⟩ ::
      estimatedRule hasRoad ws (lcgNext s)

/-- `clip(10, 80)` of line 222. -/
def clip1080 (v : ℚ) : ℚ := min 80 (max 10 v)

/-- The ML estimated table (lines 212-228): the fitted scaler-plus-
Random-Forest pipeline (an external library, deterministic at
`random_state=42`, applied to the median-imputed covariates) is modelled
by the total function `predict`; the clip applies to
`congestion_level_pct` after `travel_time_index` was derived from the
unclipped prediction (lines 217-222). -/
def estimatedML (predict : WBRow → ℚ) (W : List WBRow) : List CRow :=
  W.map (fun w => ⟨w.country, w.year, some (clip1080 (predict w)),
    some (1 + predict w / 100), "ml_random_forest"⟩)

/-- The sort key of `sort_values(['country', 'year', 'estimation_method'])`
(lines 159/233): lexicographic on the country string, the year and the
method string. -/
def crowKey (r : CRow) : Lex ((List Char) × Lex (ℤ × (List Char))) :=
  toLex (r.country.data, toLex (r.year, r.method.data))

def crowLe (a b : CRow) : Prop := crowKey a ≤ crowKey b

instance : DecidableRel crowLe := fun a b =>
  inferInstanceAs (Decidable (crowKey a ≤ crowKey b))

instance : IsTotal CRow crowLe := ⟨fun a b => le_total (crowKey a) (crowKey b)⟩

instance : IsTrans CRow crowLe :=
  ⟨fun _ _ _ hab hbc => le_trans hab hbc⟩

/-- The final re-sort key `sort_values(['country', 'year'])` (line
239). -/
def outSortKey (r : CRow) : Lex ((List Char) × ℤ) :=
  toLex (r.country.data, r.year)

def outLe (a b : CRow) : Prop := outSortKey a ≤ outSortKey b

instance : DecidableRel outLe := fun a b =>
  inferInstanceAs (Decidable (outSortKey a ≤ outSortKey b))

instance : IsTotal CRow outLe :=
  ⟨fun a b => le_total (outSortKey a) (outSortKey b)⟩

instance : IsTrans CRow outLe :=
  ⟨fun _ _ _ hab hbc => le_trans hab hbc⟩

/-- Embeds `drop_duplicates(subset=['country', 'year'], keep='first')`
(lines 160/234): walk the list keeping the first row of each key. -/
def dedupFirst : List CRow → List (String × ℤ) → List CRow
  | [], _ => []
  | r :: rs, seen =>
    if r.key ∈ seen then dedupFirst rs seen
    else r :: dedupFirst rs (r.key :: seen)

/-- Concatenate, sort, and keep the first row per key (lines
158-160/232-234). -/
def combineCore (A E : List CRow) : List CRow :=
  dedupFirst (List.insertionSort crowLe (A ++ E)) []

/-- `combined['data_source'] = combined['estimation_method']` (lines
161/235). -/
def toOut (r : CRow) : OutRow :=
  ⟨r.country, r.year, r.congestion, r.tti, r.method, r.method⟩

/-- The comprehensive congestion table as persisted (lines 158-161 or
232-235, then the re-sort of line 239). -/
def combineTables (A E : List CRow) : List OutRow :=
  (List.insertionSort outLe (combineCore A E)).map toOut

/-- The whole stage in its rule-based branch. -/
def congestionComprehensiveRule (T : List TRow) (W : List WBRow)
    (hasRoad : Bool) (seed : ℕ) : List OutRow :=
  combineTables (aggTomTom T) (estimatedRule hasRoad W seed)

/-- The whole stage in its ML branch. -/
def congestionComprehensiveML (predict : WBRow → ℚ) (T : List TRow)
    (W : List WBRow) : List OutRow :=
  combineTables (aggTomTom T) (estimatedML predict W)

theorem dedupFirst_subset {l : List CRow} {seen : List (String × ℤ)} :
    ∀ r ∈ dedupFirst l seen, r ∈ l := by
  induction l generalizing seen with
  | nil => intro r hr; cases hr
  | cons x xs ih =>
    intro r hr
    unfold dedupFirst at hr
    split_ifs at hr with hx
    · exact List.mem_cons_of_mem _ (ih r hr)
    · rcases List.mem_cons.mp hr with h | h
      · exact h ▸ List.mem_cons_self _ _
      · exact List.mem_cons_of_mem _ (ih r h)

theorem dedupFirst_key_not_seen {l : List CRow} {seen : List (String × ℤ)} :
    ∀ r ∈ dedupFirst l seen, r.key ∉ seen := by
  induction l generalizing seen with
  | nil => intro r hr; cases hr
  | cons x xs ih =>
    intro r hr
    unfold dedupFirst at hr
    split_ifs at hr with hx
    · exact ih r hr
    · rcases List.mem_cons.mp hr with h | h
      · rw [h]; exact hx
      · have := ih r h
        intro hmem
        exact this (List.mem_cons_of_mem _ hmem)

theorem dedupFirst_keys_nodup {l : List CRow} {seen : List (String × ℤ)} :
    ((dedupFirst l seen).map CRow.key).Nodup := by
  induction l generalizing seen with
  | nil => exact List.nodup_nil
  | cons x xs ih =>
    unfold dedupFirst
    split_ifs with hx
    · exact ih
    · rw [List.map_cons, List.nodup_cons]
      refine ⟨?_, ih⟩
      intro hmem
      obtain ⟨r, hr, hkey⟩ := List.mem_map.mp hmem
      exact dedupFirst_key_not_seen r hr
        (hkey ▸ List.mem_cons_self _ _)

theorem dedupFirst_find {l : List CRow} {seen : List (String × ℤ)} :
    ∀ r ∈ dedupFirst l seen,
      l.find? (fun x => decide (x.key = r.key)) = some r := by
  induction l generalizing seen with
  | nil => intro r hr; cases hr
  | cons x xs ih =>
    intro r hr
    unfold dedupFirst at hr
    split_ifs at hr with hx
    · have hrs := dedupFirst_key_not_seen r hr
      have hne : ¬x.key = r.key := fun h => hrs (h ▸ hx)
      rw [List.find?_cons_of_neg _ (by simpa using hne)]
      exact ih r hr
    · rcases List.mem_cons.mp hr with h | h
      · subst h
        rw [List.find?_cons_of_pos _ (by simp)]
      · have hrs := dedupFirst_key_not_seen r h
        have hne : ¬x.key = r.key := by
          intro hk
          exact hrs (hk ▸ List.mem_cons_self _ _)
        rw [List.find?_cons_of_neg _ (by simpa using hne)]
        exact ih r h

theorem dedupFirst_covers {l : List CRow} {seen : List (String × ℤ)} :
    ∀ k ∈ l.map CRow.key, k ∉ seen →
      ∃ r ∈ dedupFirst l seen, r.key = k := by
  induction l generalizing seen with
  | nil => intro k hk; cases hk
  | cons x xs ih =>
    intro k hk hks
    unfold dedupFirst
    rcases List.mem_cons.mp hk with h | h
    · split_ifs with hx
      · exact absurd (by rw [h]; exact hx) hks
      · exact ⟨x, List.mem_cons_self _ _, h.symm⟩
    · by_cases hxs : x.key ∈ seen
      · rw [if_pos hxs]
        exact ih k h hks
      · rw [if_neg hxs]
        by_cases hkx : k = x.key
        · exact ⟨x, List.mem_cons_self _ _, hkx.symm⟩
        · obtain ⟨r, hr, hrk⟩ := ih k h (by
            intro hmm
            rcases List.mem_cons.mp hmm with hmm1 | hmm1
            · exact hkx hmm1
            · exact hks hmm1)
          exact ⟨r, List.mem_cons_of_mem _ hr, hrk⟩

theorem find?_min_of_sorted {l : List CRow} {le : CRow → CRow → Prop}
    (hs : List.Pairwise le l) {p : CRow → Bool} {r : CRow}
    (hf : l.find? p = some r) :
    ∀ x ∈ l, p x = true → le r x ∨ r = x := by
  induction l with
  | nil => cases hf
  | cons a as ih =>
    rcases List.pairwise_cons.mp hs with ⟨ha, has⟩
    by_cases hp : p a = true
    · rw [List.find?_cons_of_pos _ hp] at hf
      cases hf
      intro x hx hpx
      rcases List.mem_cons.mp hx with h | h
      · exact Or.inr h.symm
      · exact Or.inl (ha x h)
    · rw [List.find?_cons_of_neg _ (by simpa using hp)] at hf
      intro x hx hpx
      rcases List.mem_cons.mp hx with h | h
      · exact absurd (h ▸ hpx) hp
      · exact ih has hf x h hpx

theorem countP_le_one_of_keys_nodup {l : List CRow}
    (h : (l.map CRow.key).Nodup) (k : String × ℤ) :
    l.countP (fun x => decide (x.key = k)) ≤ 1 := by
  induction l with
  | nil => simp
  | cons x xs ih =>
    rw [List.map_cons, List.nodup_cons] at h
    rw [List.countP_cons]
    by_cases hx : x.key = k
    · have hzero : xs.countP (fun y => decide (y.key = k)) = 0 := by
        rw [List.countP_eq_zero]
        intro a ha
        simp only [decide_eq_true_eq]
        intro hak
        apply h.1
        rw [← hx] at hak
        exact hak ▸ List.mem_map_of_mem CRow.key ha
      rw [hzero]
      simp [hx]
    · have := ih h.2
      simpa [hx] using this

theorem combineCore_mem_src {A E : List CRow} {r : CRow}
    (hr : r ∈ combineCore A E) : r ∈ A ++ E :=
  (List.perm_insertionSort crowLe (A ++ E)).mem_iff.mp
    (dedupFirst_subset r hr)

theorem combineCore_count_one (A E : List CRow) {k : String × ℤ}
    (hk : k ∈ (A ++ E).map CRow.key) :
    (combineCore A E).countP (fun r => decide (r.key = k)) = 1 := by
  have hperm : (List.insertionSort crowLe (A ++ E)).Perm (A ++ E) :=
    List.perm_insertionSort crowLe (A ++ E)
  have hk2 : k ∈ (List.insertionSort crowLe (A ++ E)).map CRow.key := by
    rw [List.mem_map] at hk ⊢
    obtain ⟨r, hr, hrk⟩ := hk
    exact ⟨r, hperm.mem_iff.mpr hr, hrk⟩
  obtain ⟨r, hr, hrk⟩ := dedupFirst_covers k hk2 (List.not_mem_nil k)
  have hpos : 0 < (combineCore A E).countP (fun x => decide (x.key = k)) :=
    List.countP_pos_iff.mpr ⟨r, hr, by simpa using hrk⟩
  have hnodup : ((combineCore A E).map CRow.key).Nodup := dedupFirst_keys_nodup
  have hle : (combineCore A E).countP (fun x => decide (x.key = k)) ≤ 1 :=
    countP_le_one_of_keys_nodup hnodup k
  omega

/-- Within one `(country, year)` group the sort order compares the
`estimation_method` strings. -/
theorem crowLe_same_key {a b : CRow} (hc : a.country = b.country)
    (hy : a.year = b.year) (h : crowLe a b) :
    a.method.data ≤ b.method.data := by
  unfold crowLe crowKey at h
  rw [Prod.Lex.le_iff] at h
  rcases h with h | ⟨-, h⟩
  · rw [hc] at h
    exact absurd h (lt_irrefl _)
  · rw [Prod.Lex.le_iff] at h
    rcases h with h | ⟨-, h⟩
    · rw [hy] at h
      exact absurd h (lt_irrefl _)
    · exact h

/-- The row kept for a key carried by the actual table comes from the
actual table: any estimated row with the same key sorts strictly after
it. -/
theorem combineCore_actual {A E : List CRow}
    (hA : ∀ r ∈ A, r.method = "actual_tomtom")
    (hE : ∀ r ∈ E, r.method = "ml_random_forest" ∨ r.method = "rule_based") :
    ∀ r ∈ combineCore A E, r.key ∈ A.map CRow.key → r ∈ A := by
  intro r hr hk
  obtain ⟨a, ha, hak⟩ := List.mem_map.mp hk
  have hsorted : List.Pairwise crowLe (List.insertionSort crowLe (A ++ E)) :=
    List.sorted_insertionSort crowLe (A ++ E)
  have hfind := dedupFirst_find r hr
  have hamem : a ∈ List.insertionSort crowLe (A ++ E) :=
    (List.perm_insertionSort crowLe (A ++ E)).mem_iff.mpr
      (List.mem_append.mpr (Or.inl ha))
  have hmin := find?_min_of_sorted hsorted hfind a hamem (by simpa using hak)
  rcases combineCore_mem_src hr |> List.mem_append.mp with hrA | hrE
  · exact hrA
  · exfalso
    have hkey : a.key = r.key := hak
    have hcountry : r.country = a.country := by
      have := congrArg Prod.fst hkey
      exact this.symm
    have hyear : r.year = a.year := by
      have := congrArg Prod.snd hkey
      exact this.symm
    rcases hmin with hle | heq
    · have hdata := crowLe_same_key hcountry hyear hle
      rw [hA a ha] at hdata
      rcases hE r hrE with hm | hm <;> rw [hm] at hdata <;>
        exact absurd hdata (by decide)
    · have hra : r.method = "actual_tomtom" := by
        rw [heq]
        exact hA a ha
      rcases hE r hrE with hm | hm <;> rw [hm] at hra <;>
        exact absurd hra (by decide)

theorem combineTables_countP (A E : List CRow) (p : OutRow → Bool) :
    (combineTables A E).countP p =
      (combineCore A E).countP (fun r => p (toOut r)) := by
  unfold combineTables
  rw [List.countP_map]
  exact (List.perm_insertionSort outLe (combineCore A E)).countP_eq _

theorem combineTables_mem {A E : List CRow} {o : OutRow} :
    o ∈ combineTables A E ↔ ∃ r ∈ combineCore A E, toOut r = o := by
  unfold combineTables
  rw [List.mem_map]
  constructor
  · rintro ⟨r, hr, hro⟩
    exact ⟨r, (List.perm_insertionSort outLe _).mem_iff.mp hr, hro⟩
  · rintro ⟨r, hr, hro⟩
    exact ⟨r, (List.perm_insertionSort outLe _).mem_iff.mpr hr, hro⟩

theorem aggTomTom_method {T : List TRow} :
    ∀ r ∈ aggTomTom T, r.method = "actual_tomtom" := by
  intro r hr
  obtain ⟨k, hk, hrk⟩ := List.mem_map.mp hr
  rw [← hrk]

theorem aggTomTom_keys (T : List TRow) :
    (aggTomTom T).map CRow.key = tomtomKeys T := by
  unfold aggTomTom
  rw [List.map_map]
  exact List.map_id ((tomtomKeys T))

theorem aggTomTom_keys_nodup (T : List TRow) :
    ((aggTomTom T).map CRow.key).Nodup := by
  rw [aggTomTom_keys]
  exact List.nodup_dedup _

theorem aggTomTom_congestion {T : List TRow} :
    ∀ r ∈ aggTomTom T,
      r.congestion =
        meanOpt ((tomtomGroup T r.key).map (fun t => t.congestion)) := by
  intro r hr
  obtain ⟨k, hk, hrk⟩ := List.mem_map.mp hr
  rw [← hrk]
  rfl

theorem tomtomGroup_of_key_mem {T : List TRow} {k : String × ℤ}
    (hk : k ∈ tomtomKeys T) : ∃ t ∈ tomtomGroup T k, t ∈ T := by
  unfold tomtomKeys at hk
  rw [List.mem_dedup] at hk
  obtain ⟨t, ht, htk⟩ := List.mem_map.mp hk
  refine ⟨t, ?_, ht⟩
  unfold tomtomGroup
  rw [List.mem_filter]
  refine ⟨ht, ?_⟩
  rw [← htk]
  simp

theorem aggTomTom_nonnull {T : List TRow}
    (hT : ∀ t ∈ T, t.congestion ≠ none) :
    ∀ r ∈ aggTomTom T, r.congestion ≠ none := by
  intro r hr
  have hck : r.key ∈ tomtomKeys T := by
    rw [← aggTomTom_keys T]
    exact List.mem_map_of_mem CRow.key hr
  obtain ⟨t, htg, htT⟩ := tomtomGroup_of_key_mem hck
  rw [aggTomTom_congestion r hr]
  unfold meanOpt
  rw [if_neg ?hne]
  · simp
  case hne =>
    intro h0
    rw [List.length_eq_zero, List.filterMap_eq_nil_iff] at h0
    have hmem : t.congestion ∈ (tomtomGroup T r.key).map
        (fun t => t.congestion) :=
      List.mem_map_of_mem _ htg
    cases hc : t.congestion with
    | none => exact hT t htT hc
    | some v =>
      have := h0 t.congestion hmem
      rw [hc] at this
      simp at this

theorem estimatedML_method {predict : WBRow → ℚ} {W : List WBRow} :
    ∀ r ∈ estimatedML predict W,
      r.method = "ml_random_forest" ∧ r.congestion ≠ none := by
  intro r hr
  obtain ⟨w, hw, hrw⟩ := List.mem_map.mp hr
  rw [← hrw]
  exact ⟨rfl, by simp⟩

theorem estimatedML_keys (predict : WBRow → ℚ) (W : List WBRow) :
    (estimatedML predict W).map CRow.key =
      W.map (fun w => (w.country, w.year)) := by
  unfold estimatedML
  rw [List.map_map]
  rfl

theorem estimatedRule_method {hasRoad : Bool} {W : List WBRow} {s : ℕ} :
    ∀ r ∈ estimatedRule hasRoad W s,
      r.method = "rule_based" ∧ r.congestion ≠ none := by
  induction W generalizing s with
  | nil => intro r hr; cases hr
  | cons w ws ih =>
    intro r hr
    unfold estimatedRule at hr
    rcases List.mem_cons.mp hr with h | h
    · rw [h]
      exact ⟨rfl, by simp⟩
    · exact ih r h

theorem estimatedRule_keys (hasRoad : Bool) (W : List WBRow) (s : ℕ) :
    (estimatedRule hasRoad W s).map CRow.key =
      W.map (fun w => (w.country, w.year)) := by
  induction W generalizing s with
  | nil => rfl
  | cons w ws ih =>
    unfold estimatedRule
    rw [List.map_cons, List.map_cons, ih]
    rfl

/-- Shared precedence argument over an arbitrary estimated table. -/
theorem combine_actual_precedence_general (T : List TRow) (E : List CRow)
    (hE : ∀ r ∈ E, r.method = "ml_random_forest" ∨ r.method = "rule_based")
    (c : String) (y : ℤ) (hkA : (c, y) ∈ tomtomKeys T) :
    (combineTables (aggTomTom T) E).countP
        (fun r => decide (r.country = c ∧ r.year = y)) = 1 ∧
    ∀ r ∈ combineTables (aggTomTom T) E, r.country = c → r.year = y →
      r.dataSource = "actual_tomtom" ∧ r.method = "actual_tomtom" ∧
      r.congestion = meanOpt ((tomtomGroup T (c, y)).map
        (fun t => t.congestion)) := by
  have hkA2 : (c, y) ∈ (aggTomTom T ++ E).map CRow.key := by
    rw [List.map_append, List.mem_append, aggTomTom_keys]
    exact Or.inl hkA
  constructor
  · rw [combineTables_countP]
    have hstep : ∀ a ∈ combineCore (aggTomTom T) E,
        decide ((toOut a).country = c ∧ (toOut a).year = y) = true ↔
          decide (a.key = (c, y)) = true := by
      intro r hr
      simp [toOut, CRow.key, Prod.ext_iff]
    rw [List.countP_congr hstep]
    exact combineCore_count_one (aggTomTom T) E hkA2
  · intro o ho hc hy
    obtain ⟨r, hr, hro⟩ := combineTables_mem.mp ho
    have hrc : r.country = c := by rw [← hro] at hc; exact hc
    have hry : r.year = y := by rw [← hro] at hy; exact hy
    have hkey : r.key = (c, y) := by
      unfold CRow.key
      rw [hrc, hry]
    have hrA : r ∈ aggTomTom T :=
      combineCore_actual aggTomTom_method hE r hr
        (by rw [aggTomTom_keys, hkey]; exact hkA)
    have hm := aggTomTom_method r hrA
    have hcong := aggTomTom_congestion r hrA
    rw [← hro]
    refine ⟨hm, hm, ?_⟩
    show r.congestion = _
    rw [hcong, hkey]

/-- Shared coverage argument over an arbitrary estimated table. -/
theorem combine_coverage_general (T : List TRow) (E : List CRow)
    (hT : ∀ t ∈ T, t.congestion ≠ none)
    (hEm : ∀ r ∈ E, (r.method = "ml_random_forest" ∨
      r.method = "rule_based") ∧ r.congestion ≠ none)
    (c : String) (y : ℤ) (hkE : (c, y) ∈ E.map CRow.key) :
    (combineTables (aggTomTom T) E).countP
        (fun r => decide (r.country = c ∧ r.year = y)) = 1 ∧
    ∀ r ∈ combineTables (aggTomTom T) E, r.country = c → r.year = y →
      r.congestion ≠ none ∧
      (r.dataSource = "actual_tomtom" ∨ r.dataSource = "ml_random_forest" ∨
        r.dataSource = "rule_based") := by
  have hkE2 : (c, y) ∈ (aggTomTom T ++ E).map CRow.key := by
    rw [List.map_append, List.mem_append]
    exact Or.inr hkE
  constructor
  · rw [combineTables_countP]
    have hstep : ∀ a ∈ combineCore (aggTomTom T) E,
        decide ((toOut a).country = c ∧ (toOut a).year = y) = true ↔
          decide (a.key = (c, y)) = true := by
      intro r hr
      simp [toOut, CRow.key, Prod.ext_iff]
    rw [List.countP_congr hstep]
    exact combineCore_count_one (aggTomTom T) E hkE2
  · intro o ho hc hy
    obtain ⟨r, hr, hro⟩ := combineTables_mem.mp ho
    rcases List.mem_append.mp (combineCore_mem_src hr) with hrA | hrE
    · rw [← hro]
      refine ⟨aggTomTom_nonnull hT r hrA, Or.inl (aggTomTom_method r hrA)⟩
    · rw [← hro]
      refine ⟨(hEm r hrE).2, ?_⟩
      rcases (hEm r hrE).1 with h | h
      · exact Or.inr (Or.inl h)
      · exact Or.inr (Or.inr h)

/-- C1: for a `(country, year)` key present both in the aggregated
actual-measurement table and in the estimated table, the comprehensive
congestion dataset keeps exactly one row for the key, and that row
carries the actual measurement's aggregated `congestion_level_pct` with
`data_source = 'actual_tomtom'` — in both the rule-based and the ML
branch, since `'actual_tomtom'` sorts before either estimation tag and
`drop_duplicates` keeps the first row. -/
theorem congestion_actual_precedence (T : List TRow) (W : List WBRow)
    (hasRoad : Bool) (seed : ℕ) (predict : WBRow → ℚ) (c : String) (y : ℤ)
    (hkA : (c, y) ∈ tomtomKeys T)
    (hkE : (c, y) ∈ W.map (fun w => (w.country, w.year))) :
    ((congestionComprehensiveRule T W hasRoad seed).countP
        (fun r => decide (r.country = c ∧ r.year = y)) = 1 ∧
      ∀ r ∈ congestionComprehensiveRule T W hasRoad seed,
        r.country = c → r.year = y →
          r.dataSource = "actual_tomtom" ∧ r.method = "actual_tomtom" ∧
          r.congestion = meanOpt ((tomtomGroup T (c, y)).map
            (fun t => t.congestion))) ∧
    ((congestionComprehensiveML predict T W).countP
        (fun r => decide (r.country = c ∧ r.year = y)) = 1 ∧
      ∀ r ∈ congestionComprehensiveML predict T W,
        r.country = c → r.year = y →
          r.dataSource = "actual_tomtom" ∧ r.method = "actual_tomtom" ∧
          r.congestion = meanOpt ((tomtomGroup T (c, y)).map
            (fun t => t.congestion))) := by
  constructor
  · exact combine_actual_precedence_general T (estimatedRule hasRoad W seed)
      (fun r hr => Or.inr (estimatedRule_method r hr).1) c y hkA
  · exact combine_actual_precedence_general T (estimatedML predict W)
      (fun r hr => Or.inl (estimatedML_method r hr).1) c y hkA

/-- Witness for C1: one actual measurement and one estimated row for
`("PH", 2020)`; the combined table keeps exactly one row for the key in
both branches. -/
theorem congestion_actual_precedence_witness :
    (congestionComprehensiveRule
      [⟨"Manila", "PH", 2020, some 40, some 1⟩]
      [⟨"PH", 2020, some 3000, some 50, some 1, some 1000000⟩] true 0).countP
        (fun r => decide (r.country = "PH" ∧ r.year = 2020)) = 1 ∧
    (congestionComprehensiveML (fun _ => 55)
      [⟨"Manila", "PH", 2020, some 40, some 1⟩]
      [⟨"PH", 2020, some 3000, some 50, some 1, some 1000000⟩]).countP
        (fun r => decide (r.country = "PH" ∧ r.year = 2020)) = 1 := by
  have h := congestion_actual_precedence
    [⟨"Manila", "PH", 2020, some 40, some 1⟩]
    [⟨"PH", 2020, some 3000, some 50, some 1, some 1000000⟩]
    true 0 (fun _ => 55) "PH" 2020 (by decide) (by decide)
  exact ⟨h.1.1, h.2.1⟩

/-- C2: every `(country, year)` key of the base worldbank panel appears
in the comprehensive congestion dataset in exactly one row, with a
non-null `congestion_level_pct` (given that actual measurements are
non-null) and a provenance tag among the three valid values — in both
branches. -/
theorem congestion_coverage_totality (T : List TRow) (W : List WBRow)
    (hasRoad : Bool) (seed : ℕ) (predict : WBRow → ℚ) (c : String) (y : ℤ)
    (hT : ∀ t ∈ T, t.congestion ≠ none)
    (hkW : (c, y) ∈ W.map (fun w => (w.country, w.year))) :
    ((congestionComprehensiveRule T W hasRoad seed).countP
        (fun r => decide (r.country = c ∧ r.year = y)) = 1 ∧
      ∀ r ∈ congestionComprehensiveRule T W hasRoad seed,
        r.country = c → r.year = y →
          r.congestion ≠ none ∧
          (r.dataSource = "actual_tomtom" ∨
            r.dataSource = "ml_random_forest" ∨
            r.dataSource = "rule_based")) ∧
    ((congestionComprehensiveML predict T W).countP
        (fun r => decide (r.country = c ∧ r.year = y)) = 1 ∧
      ∀ r ∈ congestionComprehensiveML predict T W,
        r.country = c → r.year = y →
          r.congestion ≠ none ∧
          (r.dataSource = "actual_tomtom" ∨
            r.dataSource = "ml_random_forest" ∨
            r.dataSource = "rule_based")) := by
  constructor
  · exact combine_coverage_general T (estimatedRule hasRoad W seed) hT
      (fun r hr => ⟨Or.inr (estimatedRule_method r hr).1,
        (estimatedRule_method r hr).2⟩) c y
      (by rw [estimatedRule_keys]; exact hkW)
  · exact combine_coverage_general T (estimatedML predict W) hT
      (fun r hr => ⟨Or.inl (estimatedML_method r hr).1,
        (estimatedML_method r hr).2⟩) c y
      (by rw [estimatedML_keys]; exact hkW)

/-- Witness for C2: a worldbank key `("ID", 2021)` with no actual
measurement still gets exactly one row in both branches. -/
theorem congestion_coverage_totality_witness :
    (congestionComprehensiveRule
      [⟨"Manila", "PH", 2020, some 40, some 1⟩]
      [⟨"ID", 2021, some 4000, some 60, none, some 270000000⟩] true 0).countP
        (fun r => decide (r.country = "ID" ∧ r.year = 2021)) = 1 ∧
    (congestionComprehensiveML (fun _ => 55)
      [⟨"Manila", "PH", 2020, some 40, some 1⟩]
      [⟨"ID", 2021, some 4000, some 60, none, some 270000000⟩]).countP
        (fun r => decide (r.country = "ID" ∧ r.year = 2021)) = 1 := by
  have h := congestion_coverage_totality
    [⟨"Manila", "PH", 2020, some 40, some 1⟩]
    [⟨"ID", 2021, some 4000, some 60, none, some 270000000⟩]
    true 0 (fun _ => 55) "ID" 2021 (by decide) (by decide)
  exact ⟨h.1.1, h.2.1⟩

/-- C9: the estimator is a pure function of its input tables and the
random seed — the Random Forest is pinned to `random_state=42` and the
rule-based noise stream is fully determined by the (modelled) numpy
seed — so two runs with equal inputs and equal seeds produce equal
comprehensive congestion output in both branches. -/
theorem congestion_estimator_deterministic (T : List TRow)
    (W : List WBRow) (hasRoad : Bool) (predict : WBRow → ℚ)
    (s1 s2 : ℕ) (hs : s1 = s2) :
    congestionComprehensiveRule T W hasRoad s1 =
      congestionComprehensiveRule T W hasRoad s2 ∧
    congestionComprehensiveML predict T W =
      congestionComprehensiveML predict T W := by
  rw [hs]
  exact ⟨rfl, rfl⟩

/-- Witness for C9 at concrete inputs and seed 5. -/
theorem congestion_estimator_deterministic_witness :
    congestionComprehensiveRule
      [⟨"Manila", "PH", 2020, some 40, some 1⟩]
      [⟨"PH", 2020, some 3000, some 50, some 1, some 1000000⟩] true 5 =
    congestionComprehensiveRule
      [⟨"Manila", "PH", 2020, some 40, some 1⟩]
      [⟨"PH", 2020, some 3000, some 50, some 1, some 1000000⟩] true 5 :=
  (congestion_estimator_deterministic
    [⟨"Manila", "PH", 2020, some 40, some 1⟩]
    [⟨"PH", 2020, some 3000, some 50, some 1, some 1000000⟩]
    true (fun _ => 55) 5 5 rfl).1

end TransPort
